import Mathlib

/-!
Verification of `PerfectNumbersRoot.c`.

The integer side (the perfect-number tester `isPerfectNumber`, the divisor
display loop `displayFactors`, the range scan of `main`) is embedded as
computable functions over `ℕ`, with the one signed subtraction
`sum -= number` carried out in `ℤ` exactly as the C `int` arithmetic does
(no overflow occurs on the modeled range).

The loop condition `count <= sqrt(number)` of the C source compares the
`int` counter against the `double` `sqrt(number)`.  For an `int` counter
and any `n` below 2^52 a correctly rounded double square root of `n` never
rounds across an integer, so the condition holds exactly when
`count * count ≤ n`; the embedding uses that arithmetic form directly.

The floating-point Babylonian solver is embedded twice:
* an exact-real model (`getInitialGuess`, `computeSquareRoot` over `ℝ`),
  the idealization of the `long double` arithmetic on positive radicands;
* an IEEE-754 special-value model (`FP`) tracking NaN and the infinities,
  used for the non-positive radicands, where the behavior is driven by
  `log10(0) = -inf` and `log10(x) = NaN` for `x < 0` and the real model is
  not faithful.

The solver loop in C is a bare do-while; the embeddings take an explicit
fuel parameter only to make the recursion structural.  `none` means the
fuel ran out before the loop exited and never occurs with enough fuel.
-/

/-- `PRECISION` from the source. -/
def PRECISION : ℕ := 15

/-- `BASE_E` from the source: the base 10 used for `pow`. -/
def BASE_E : ℕ := 10

/-- `RANGE_LOWER_BOUND` from the source. -/
def RANGE_LOWER_BOUND : ℕ := 1

/-- `RANGE_UPPER_BOUND` from the source. -/
def RANGE_UPPER_BOUND : ℕ := 10000

/-- One iteration's contribution to the divisor-pairing sum of
`isPerfectNumber`: when `count` divides `n`, the pair `pair = n / count` is
formed; `count` alone is added when `count == pair`, otherwise both members
of the pair are added. -/
def contrib (n d : ℕ) : ℕ :=
  if n % d = 0 then (if d = n / d then d else d + n / d) else 0

/-- The divisor loop of `isPerfectNumber`:
`for (count = 1; count <= sqrt(number); count++)`, summing `contrib`.
The condition `count <= sqrt(number)` is embedded as `count * count ≤ n`
(see the header note); the fuel argument only bounds the recursion and any
value larger than `√n` gives the same result. -/
def pairLoop (n : ℕ) (fuel : ℕ) : ℕ → ℕ :=
  @Nat.rec (fun _ => ℕ → ℕ) (fun _ => 0)
    (fun _ ih count =>
      if count * count ≤ n then contrib n count + ih (count + 1) else 0) fuel

/-- The full divisor-pairing sum computed by `isPerfectNumber`'s loop. -/
def pairSum (n : ℕ) : ℕ := pairLoop n (n + 1) 1

/-- `isPerfectNumber` from the source: odd inputs are rejected immediately;
otherwise the pairing sum is computed, the input itself is removed
(`sum -= number`, in `ℤ` like the C `int`), and the result is compared
with the input. -/
def isPerfectNumber (n : ℕ) : Bool :=
  if n % 2 = 1 then false
  else decide ((pairSum n : ℤ) - n = n)

/-- Running sum of the spec's brute-force reference: all `d ∈ 1..k` with
`n mod d = 0`. -/
def naiveSumUpTo (n : ℕ) : ℕ → ℕ
  | 0 => 0
  | k + 1 => naiveSumUpTo n k + (if n % (k + 1) = 0 then k + 1 else 0)

/-- The spec's brute-force reference divisor sum:
`sum(d for d in 1..n-1 if n % d == 0)`. -/
def naiveSum (n : ℕ) : ℕ := naiveSumUpTo n (n - 1)

/-- The spec's brute-force reference perfect-number test:
`sum(d for d in 1..n-1 if n % d == 0) == n`. -/
def isPerfectNaive (n : ℕ) : Bool := decide (naiveSum n = n)

/-- The sequence of factors printed by `displayFactors`: `1` first, then
every `count` in `2 .. perfectNumber / 2` dividing the input, in loop
order. -/
def displayFactors (n : ℕ) : List ℕ :=
  1 :: (List.range' 2 (n / 2 - 1)).filter (fun d => n % d = 0)

/-- The candidates scanned by `main`:
`RANGE_LOWER_BOUND .. RANGE_UPPER_BOUND` inclusive, in order. -/
def scannedCandidates : List ℕ :=
  List.range' RANGE_LOWER_BOUND RANGE_UPPER_BOUND

/-- The radicands `main` passes to `computeSquareRoot`: exactly the scanned
candidates accepted by `isPerfectNumber`, in scan order. -/
def scannerRadicands : List ℕ :=
  scannedCandidates.filter (fun n => isPerfectNumber n)

/-- `contrib` in `Bool`-level form (`cond` and `Nat.beq` instead of `ite`
and `Decidable` instances), for fast kernel evaluation; proven equal to
`contrib` below. -/
def contribB (n d : ℕ) : ℕ :=
  cond (n % d == 0) (cond (d == n / d) d (d + n / d)) 0

/-- The pairing loop restricted to odd trial divisors (step 2 instead of
step 1), used to decide the odd candidates quickly: even trial divisors
cannot divide an odd number.  Proven equal to `pairLoop` on odd inputs. -/
def oddPairLoop (n : ℕ) (fuel : ℕ) : ℕ → ℕ :=
  @Nat.rec (fun _ => ℕ → ℕ) (fun _ => 0)
    (fun _ ih count =>
      cond (Nat.ble (count * count) n) (contribB n count + ih (count + 2)) 0) fuel

/-- `pairSum` along odd trial divisors only. -/
def oddPairSum (n : ℕ) : ℕ := oddPairLoop n (n + 1) 1

/-- Splits `m` as `2 ^ k * m'` with `m'` odd, fuel-indexed: returns
`(k, m')`. -/
def split2 (fuel : ℕ) : ℕ → ℕ × ℕ :=
  @Nat.rec (fun _ => ℕ → ℕ × ℕ) (fun m => (0, m))
    (fun _ ih m =>
      cond (m % 2 == 0 && !(m == 0)) ((ih (m / 2)).1 + 1, (ih (m / 2)).2) (0, m)) fuel

/-- Fast perfection test for even candidates, using multiplicativity of the
divisor sum: with `n = 2 ^ k * m`, `m` odd, `n` is accepted by
`isPerfectNumber` iff `(2 ^ (k + 1) - 1) * σ(m) = 2 * n`, where `σ(m)` is
computed by the odd-stepping pairing loop.  Proven equivalent to
`isPerfectNumber` below. -/
def evenPerfectCheck (n : ℕ) : Bool :=
  (2 ^ ((split2 n n).1 + 1) - 1) * oddPairSum (split2 n n).2 == 2 * n

/-- Combined machine-checked range fact, verified in chunks: for every
scanned candidate, an odd candidate's pairing sum is not `2 * n` (no odd
perfect numbers in range), and an even candidate is accepted exactly when
it is 6, 28, 496 or 8128. -/
def bulkCheck (a len : ℕ) : Bool :=
  (List.range' a len).all fun n =>
    cond (n % 2 == 1) (!(oddPairSum n == 2 * n))
      (evenPerfectCheck n == (n == 6 || n == 28 || n == 496 || n == 8128))

noncomputable section

open Real

/-- `getInitialGuess` from the source, over exact reals:
`digits = ceil(log10(radicand))`, result `= pow(BASE_E, digits / 2.0)`. -/
def getInitialGuess (radicand : ℝ) : ℝ :=
  (BASE_E : ℝ) ^ ((⌈Real.logb BASE_E radicand⌉ : ℝ) / 2)

/-- The convergence threshold `limit = pow(BASE_E, PRECISION * -1)` of
`computeSquareRoot`. -/
def limit : ℝ := (BASE_E : ℝ) ^ (-(PRECISION : ℤ))

open scoped Classical in
/-- The do-while refinement loop of `computeSquareRoot`: one refinement
`guess = (1.0/2.0) * (guess + radicand / guess)` and one `iterations++`
per pass, exiting as soon as `fabs(previousGuess - guess) > limit`
fails. -/
def babylonianLoop (radicand : ℝ) : ℕ → ℝ → ℕ → Option (ℝ × ℕ)
  | 0, _, _ => none
  | fuel + 1, guess, iterations =>
    let next := 1 / 2 * (guess + radicand / guess)
    if |guess - next| ≤ limit then some (next, iterations + 1)
    else babylonianLoop radicand fuel next (iterations + 1)

/-- `computeSquareRoot` from the source (the computation; printing is no
part of the value): the iteration count starts at 1, crediting the
initial-guess computation. -/
def computeSquareRoot (fuel : ℕ) (radicand : ℝ) : Option (ℝ × ℕ) :=
  babylonianLoop radicand fuel (getInitialGuess radicand) 1

/-- The guesses of the solver in order: `babylonianIterate r k` is the
guess after `k` refinement steps, starting from the initial guess. -/
def babylonianIterate (radicand : ℝ) : ℕ → ℝ
  | 0 => getInitialGuess radicand
  | k + 1 =>
    1 / 2 * (babylonianIterate radicand k + radicand / babylonianIterate radicand k)

/-- The exact rational coefficients of the solver's run on radicand 6:
`babylonianIterate 6 k = cseq k * √10`. -/
def cseq : ℕ → ℚ
  | 0 => 1
  | k + 1 => (5 * cseq k ^ 2 + 3) / (10 * cseq k)

/-- IEEE-754 double values as the solver observes them on the non-positive
radicand paths: a finite value, the two infinities, or NaN.  Signed zero is
collapsed to the single real 0, which is accurate here: the only zeros
arising on these paths are `+0.0` values. -/
inductive FP where
  | val (x : ℝ)
  | posInf
  | negInf
  | nan

open scoped Classical

/-- IEEE `log10`: NaN for negative arguments, `-inf` at zero. -/
def FP.log10 : FP → FP
  | .val x => if x < 0 then .nan else if x = 0 then .negInf else .val (Real.logb 10 x)
  | .posInf => .posInf
  | .negInf => .nan
  | .nan => .nan

/-- IEEE `ceil`, fixing infinities and NaN. -/
def FP.ceil : FP → FP
  | .val x => .val ⌈x⌉
  | .posInf => .posInf
  | .negInf => .negInf
  | .nan => .nan

/-- IEEE division: `0/0` and `inf/inf` are NaN, a nonzero finite value over
zero gives a signed infinity, a finite value over an infinity gives zero. -/
def FP.div : FP → FP → FP
  | .nan, _ => .nan
  | _, .nan => .nan
  | .val x, .val y =>
    if y = 0 then (if x = 0 then .nan else if 0 < x then .posInf else .negInf)
    else .val (x / y)
  | .val _, .posInf => .val 0
  | .val _, .negInf => .val 0
  | .posInf, .val y => if 0 ≤ y then .posInf else .negInf
  | .negInf, .val y => if 0 ≤ y then .negInf else .posInf
  | .posInf, _ => .nan
  | .negInf, _ => .nan

/-- IEEE `pow` with base 10: `pow(10, -inf) = 0`, `pow(10, +inf) = +inf`,
a NaN exponent propagates. -/
def FP.pow10 : FP → FP
  | .val y => .val ((10 : ℝ) ^ y)
  | .posInf => .posInf
  | .negInf => .val 0
  | .nan => .nan

/-- IEEE addition: `inf + (-inf)` is NaN, NaN propagates. -/
def FP.add : FP → FP → FP
  | .nan, _ => .nan
  | _, .nan => .nan
  | .val x, .val y => .val (x + y)
  | .posInf, .negInf => .nan
  | .negInf, .posInf => .nan
  | .posInf, _ => .posInf
  | .negInf, _ => .negInf
  | .val _, .posInf => .posInf
  | .val _, .negInf => .negInf

/-- IEEE subtraction: `inf - inf` is NaN, NaN propagates. -/
def FP.sub : FP → FP → FP
  | .nan, _ => .nan
  | _, .nan => .nan
  | .val x, .val y => .val (x - y)
  | .posInf, .posInf => .nan
  | .negInf, .negInf => .nan
  | .posInf, _ => .posInf
  | .negInf, _ => .negInf
  | .val _, .posInf => .negInf
  | .val _, .negInf => .posInf

/-- IEEE multiplication: `0 * inf` is NaN, NaN propagates. -/
def FP.mul : FP → FP → FP
  | .nan, _ => .nan
  | _, .nan => .nan
  | .val x, .val y => .val (x * y)
  | .val x, .posInf => if x = 0 then .nan else if 0 < x then .posInf else .negInf
  | .val x, .negInf => if x = 0 then .nan else if 0 < x then .negInf else .posInf
  | .posInf, .val y => if y = 0 then .nan else if 0 < y then .posInf else .negInf
  | .negInf, .val y => if y = 0 then .nan else if 0 < y then .negInf else .posInf
  | .posInf, .posInf => .posInf
  | .negInf, .negInf => .posInf
  | .posInf, .negInf => .negInf
  | .negInf, .posInf => .negInf

/-- IEEE `fabs`. -/
def FP.fabs : FP → FP
  | .val x => .val |x|
  | .posInf => .posInf
  | .negInf => .posInf
  | .nan => .nan

/-- IEEE `>`: every comparison involving NaN is false. -/
def FP.gtb : FP → FP → Bool
  | .nan, _ => false
  | _, .nan => false
  | .val x, .val y => decide (y < x)
  | .posInf, .posInf => false
  | .posInf, _ => true
  | .negInf, _ => false
  | .val _, .posInf => false
  | .val _, .negInf => true

/-- `getInitialGuess` under IEEE special-value semantics:
`pow(10, ceil(log10(radicand)) / 2.0)`. -/
def FP.getInitialGuess (radicand : FP) : FP :=
  FP.pow10 (FP.div (FP.ceil (FP.log10 radicand)) (FP.val 2))

/-- The do-while loop of `computeSquareRoot` under IEEE special-value
semantics: refine, increment the count, continue while
`fabs(previousGuess - guess) > limit`. -/
def FP.babylonianLoop (radicand : FP) : ℕ → FP → ℕ → Option (FP × ℕ)
  | 0, _, _ => none
  | fuel + 1, guess, iterations =>
    let next := FP.mul (FP.val (1 / 2)) (FP.add guess (FP.div radicand guess))
    if FP.gtb (FP.fabs (FP.sub guess next)) (FP.val limit) then
      FP.babylonianLoop radicand fuel next (iterations + 1)
    else some (next, iterations + 1)

/-- `computeSquareRoot` under IEEE special-value semantics. -/
def FP.computeSquareRoot (fuel : ℕ) (radicand : FP) : Option (FP × ℕ) :=
  FP.babylonianLoop radicand fuel (FP.getInitialGuess radicand) 1

end

lemma pairLoop_zero (n count : ℕ) : pairLoop n 0 count = 0 := rfl

lemma pairLoop_succ (n fuel count : ℕ) :
    pairLoop n (fuel + 1) count =
      if count * count ≤ n then contrib n count + pairLoop n fuel (count + 1) else 0 := rfl

lemma pairLoop_eq_sum (n : ℕ) :
    ∀ fuel count, Nat.sqrt n < count + fuel →
      pairLoop n fuel count = ∑ d ∈ Finset.Ico count (Nat.sqrt n + 1), contrib n d := by
  intro fuel
  induction fuel with
  | zero =>
    intro count h
    rw [pairLoop_zero, Finset.Ico_eq_empty, Finset.sum_empty]
    omega
  | succ fuel ih =>
    intro count h
    rw [pairLoop_succ]
    by_cases hc : count * count ≤ n
    · have hcs : count ≤ Nat.sqrt n := Nat.le_sqrt.mpr hc
      rw [if_pos hc, Finset.sum_eq_sum_Ico_succ_bot (by omega : count < Nat.sqrt n + 1)]
      rw [ih (count + 1) (by omega)]
    · have hcs : Nat.sqrt n < count := by
        rw [Nat.sqrt_lt]
        omega
      rw [if_neg hc, Finset.Ico_eq_empty, Finset.sum_empty]
      omega

lemma pairSum_eq_sum (n : ℕ) :
    pairSum n = ∑ d ∈ Finset.Ico 1 (Nat.sqrt n + 1), contrib n d := by
  have h := Nat.sqrt_le_self n
  exact pairLoop_eq_sum n (n + 1) 1 (by omega)

/-- The small-divisor half: trial divisors passing the `n % count == 0`
test are exactly the divisors of `n` up to `√n`. -/
lemma Ico_filter_dvd_eq (n : ℕ) (hn : n ≠ 0) :
    (Finset.Ico 1 (Nat.sqrt n + 1)).filter (fun d => n % d = 0) =
      n.divisors.filter (fun d => d ≤ Nat.sqrt n) := by
  ext d
  simp only [Finset.mem_filter, Finset.mem_Ico, Nat.mem_divisors]
  constructor
  · rintro ⟨⟨h1, h2⟩, h3⟩
    exact ⟨⟨Nat.dvd_of_mod_eq_zero h3, hn⟩, by omega⟩
  · rintro ⟨⟨h1, _⟩, h2⟩
    have hd : 0 < d := Nat.pos_of_dvd_of_pos h1 (Nat.pos_of_ne_zero hn)
    exact ⟨⟨hd, by omega⟩, Nat.mod_eq_zero_of_dvd h1⟩

/-- Each small divisor `d ≠ n / d` contributes its cofactor `n / d`;
together those cofactors are exactly the large divisors (above `√n`). -/
lemma sum_cofactors_eq (n : ℕ) (hn : n ≠ 0) :
    ∑ d ∈ n.divisors.filter (fun d => d ≤ Nat.sqrt n ∧ d ≠ n / d), n / d =
      ∑ e ∈ n.divisors.filter (fun e => ¬ e ≤ Nat.sqrt n), e := by
  refine Finset.sum_bij' (fun d _ => n / d) (fun e _ => n / e) ?_ ?_ ?_ ?_ ?_
  · intro d hd
    simp only [Finset.mem_filter, Nat.mem_divisors] at hd ⊢
    obtain ⟨⟨hdvd, _⟩, hle, hne⟩ := hd
    have hd0 : 0 < d := Nat.pos_of_dvd_of_pos hdvd (Nat.pos_of_ne_zero hn)
    have hdd : d * d ≤ n := Nat.le_sqrt.mp hle
    have hlow : d ≤ n / d := (Nat.le_div_iff_mul_le hd0).mpr hdd
    have hlt : d < n / d := lt_of_le_of_ne hlow (fun h => hne h)
    have hmul : d * (n / d) = n := Nat.mul_div_cancel' hdvd
    refine ⟨⟨Nat.div_dvd_of_dvd hdvd, hn⟩, ?_⟩
    rw [not_le, Nat.sqrt_lt]
    calc n = d * (n / d) := hmul.symm
    _ < (n / d) * (n / d) := by
      exact Nat.mul_lt_mul_of_lt_of_le hlt (le_refl _) (by omega)
  · intro e he
    simp only [Finset.mem_filter, Nat.mem_divisors] at he ⊢
    obtain ⟨⟨hdvd, _⟩, hgt⟩ := he
    rw [not_le, Nat.sqrt_lt] at hgt
    have he0 : 0 < e := Nat.pos_of_dvd_of_pos hdvd (Nat.pos_of_ne_zero hn)
    have hmul : e * (n / e) = n := Nat.mul_div_cancel' hdvd
    have hq0 : 0 < n / e := Nat.div_pos (Nat.le_of_dvd (Nat.pos_of_ne_zero hn) hdvd) he0
    have hlt : n / e < e := by
      by_contra hge
      rw [not_lt] at hge
      have : e * e ≤ e * (n / e) := Nat.mul_le_mul_left e hge
      omega
    refine ⟨⟨Nat.div_dvd_of_dvd hdvd, hn⟩, ?_, ?_⟩
    · rw [Nat.le_sqrt]
      calc n / e * (n / e) ≤ n / e * e := Nat.mul_le_mul_left _ (le_of_lt hlt)
      _ = n := Nat.div_mul_cancel hdvd
    · have hdd : n / (n / e) = e := Nat.div_div_self hdvd hn
      rw [hdd]
      omega
  · intro d hd
    simp only [Finset.mem_filter, Nat.mem_divisors] at hd
    exact Nat.div_div_self hd.1.1 hn
  · intro e he
    simp only [Finset.mem_filter, Nat.mem_divisors] at he
    exact Nat.div_div_self he.1.1 hn
  · intro d _
    rfl

/-- The pairing loop of `isPerfectNumber` computes the sum of all
divisors. -/
lemma pairSum_eq_divisors (n : ℕ) (hn : n ≠ 0) :
    pairSum n = ∑ d ∈ n.divisors, d := by
  rw [pairSum_eq_sum]
  have h1 : ∀ d ∈ Finset.Ico 1 (Nat.sqrt n + 1), contrib n d =
      if n % d = 0 then (if d = n / d then d else d + n / d) else 0 :=
    fun d _ => rfl
  rw [Finset.sum_congr rfl h1, ← Finset.sum_filter, Ico_filter_dvd_eq n hn]
  have h2 : ∀ d ∈ n.divisors.filter (fun d => d ≤ Nat.sqrt n),
      (if d = n / d then d else d + n / d) = d + (if d ≠ n / d then n / d else 0) := by
    intro d _
    by_cases h : d = n / d
    · rw [if_pos h, if_neg (fun hc => hc h)]
      omega
    · rw [if_neg h, if_pos h]
  rw [Finset.sum_congr rfl h2, Finset.sum_add_distrib, ← Finset.sum_filter,
    Finset.filter_filter, sum_cofactors_eq n hn,
    Finset.sum_filter_add_sum_filter_not]

lemma naiveSumUpTo_eq_sum (n : ℕ) :
    ∀ k, naiveSumUpTo n k = ∑ d ∈ Finset.Ico 1 (k + 1), if n % d = 0 then d else 0 := by
  intro k
  induction k with
  | zero => rw [naiveSumUpTo]; simp
  | succ k ih =>
    rw [naiveSumUpTo, Finset.sum_Ico_succ_top (by omega : 1 ≤ k + 1), ih]

lemma naiveSum_eq_properDivisors (n : ℕ) (hn : n ≠ 0) :
    naiveSum n = ∑ d ∈ n.properDivisors, d := by
  have hn1 : n - 1 + 1 = n := by omega
  rw [naiveSum, naiveSumUpTo_eq_sum, hn1, ← Finset.sum_filter]
  apply Finset.sum_congr _ (fun _ _ => rfl)
  ext d
  simp only [Finset.mem_filter, Finset.mem_Ico, Nat.mem_properDivisors]
  constructor
  · rintro ⟨⟨h1, h2⟩, h3⟩
    exact ⟨Nat.dvd_of_mod_eq_zero h3, h2⟩
  · rintro ⟨h1, h2⟩
    have hd : 0 < d := Nat.pos_of_dvd_of_pos h1 (Nat.pos_of_ne_zero hn)
    exact ⟨⟨hd, h2⟩, Nat.mod_eq_zero_of_dvd h1⟩

/-- The optimized pairing sum equals the naive proper-divisor sum plus the
input itself. -/
lemma pairSum_eq_naiveSum_add (n : ℕ) (hn : n ≠ 0) :
    pairSum n = naiveSum n + n := by
  rw [pairSum_eq_divisors n hn, naiveSum_eq_properDivisors n hn,
    Nat.sum_divisors_eq_sum_properDivisors_add_self]

lemma isPerfectNumber_odd (n : ℕ) (h : n % 2 = 1) : isPerfectNumber n = false := by
  rw [isPerfectNumber, if_pos h]

lemma isPerfectNumber_of_even (n : ℕ) (h : ¬ n % 2 = 1) :
    isPerfectNumber n = isPerfectNaive n := by
  by_cases hn : n = 0
  · subst hn
    rfl
  · rw [isPerfectNumber, if_neg h, isPerfectNaive]
    apply decide_eq_decide.mpr
    rw [pairSum_eq_naiveSum_add n hn]
    constructor <;> intro h1 <;> omega

lemma isPerfectNaive_eq_false_of_pairSum (n : ℕ) (hn : n ≠ 0)
    (h : pairSum n ≠ 2 * n) : isPerfectNaive n = false := by
  rw [isPerfectNaive, decide_eq_false_iff_not]
  intro hc
  apply h
  rw [pairSum_eq_naiveSum_add n hn, hc]
  omega

lemma isPerfectNumber_true_iff (n : ℕ) (h : ¬ n % 2 = 1) :
    isPerfectNumber n = true ↔ pairSum n = 2 * n := by
  rw [isPerfectNumber, if_neg h, decide_eq_true_eq]
  constructor <;> intro h1 <;> omega

lemma perfect_iff_pairSum (n : ℕ) (hn : 0 < n) :
    Nat.Perfect n ↔ pairSum n = 2 * n := by
  rw [Nat.perfect_iff_sum_divisors_eq_two_mul hn,
    pairSum_eq_divisors n (by omega)]

lemma contribB_eq (n d : ℕ) : contribB n d = contrib n d := by
  rw [contribB, contrib]
  by_cases h1 : n % d = 0
  · have hb1 : (n % d == 0) = true := beq_iff_eq.mpr h1
    rw [hb1, if_pos h1, cond_true]
    by_cases h2 : d = n / d
    · have hb2 : (d == n / d) = true := beq_iff_eq.mpr h2
      rw [hb2, if_pos h2, cond_true]
    · have hb2 : (d == n / d) = false := beq_eq_false_iff_ne.mpr h2
      rw [hb2, if_neg h2, cond_false]
  · have hb1 : (n % d == 0) = false := beq_eq_false_iff_ne.mpr h1
    rw [hb1, if_neg h1, cond_false]

lemma oddPairLoop_zero (n count : ℕ) : oddPairLoop n 0 count = 0 := rfl

lemma oddPairLoop_succ (n fuel count : ℕ) :
    oddPairLoop n (fuel + 1) count =
      if count * count ≤ n then contrib n count + oddPairLoop n fuel (count + 2) else 0 := by
  show cond (Nat.ble (count * count) n)
      (contribB n count + oddPairLoop n fuel (count + 2)) 0 = _
  by_cases h : count * count ≤ n
  · have hb : Nat.ble (count * count) n = true := by
      rw [Nat.ble_eq]
      exact h
    rw [hb, cond_true, if_pos h, contribB_eq]
  · have hb : Nat.ble (count * count) n = false := by
      rw [Bool.eq_false_iff]
      intro hc
      rw [Nat.ble_eq] at hc
      exact h hc
    rw [hb, cond_false, if_neg h]

lemma oddPairLoop_eq_sum (n : ℕ) :
    ∀ fuel count, count % 2 = 1 → Nat.sqrt n < count + 2 * fuel →
      oddPairLoop n fuel count =
        ∑ d ∈ (Finset.Ico count (Nat.sqrt n + 1)).filter (fun d => d % 2 = 1), contrib n d := by
  intro fuel
  induction fuel with
  | zero =>
    intro count hodd h
    rw [oddPairLoop_zero, Finset.Ico_eq_empty, Finset.filter_empty, Finset.sum_empty]
    omega
  | succ fuel ih =>
    intro count hodd h
    rw [oddPairLoop_succ]
    by_cases hc : count * count ≤ n
    · have hcs : count ≤ Nat.sqrt n := Nat.le_sqrt.mpr hc
      have hnotmem : count ∉ (Finset.Ico (count + 2) (Nat.sqrt n + 1)).filter
          (fun d => d % 2 = 1) := by
        simp only [Finset.mem_filter, Finset.mem_Ico]
        omega
      have hset : (Finset.Ico count (Nat.sqrt n + 1)).filter (fun d => d % 2 = 1) =
          Finset.cons count
            ((Finset.Ico (count + 2) (Nat.sqrt n + 1)).filter (fun d => d % 2 = 1))
            hnotmem := by
        ext d
        simp only [Finset.mem_filter, Finset.mem_Ico, Finset.mem_cons]
        omega
      rw [if_pos hc, hset, Finset.sum_cons, ih (count + 2) (by omega) (by omega)]
    · have hcs : Nat.sqrt n < count := by
        rw [Nat.sqrt_lt]
        omega
      rw [if_neg hc, Finset.Ico_eq_empty, Finset.filter_empty, Finset.sum_empty]
      omega

/-- On odd inputs the odd-stepping loop computes the full pairing sum:
even trial divisors never divide an odd number. -/
lemma oddPairSum_eq_pairSum (n : ℕ) (ho : n % 2 = 1) : oddPairSum n = pairSum n := by
  rw [pairSum_eq_sum]
  have h := Nat.sqrt_le_self n
  rw [oddPairSum, oddPairLoop_eq_sum n (n + 1) 1 rfl (by omega)]
  rw [← Finset.sum_filter_add_sum_filter_not (Finset.Ico 1 (Nat.sqrt n + 1))
    (fun d => d % 2 = 1) (contrib n)]
  have hzero : ∑ d ∈ (Finset.Ico 1 (Nat.sqrt n + 1)).filter (fun d => ¬ d % 2 = 1),
      contrib n d = 0 := by
    apply Finset.sum_eq_zero
    intro d hd
    simp only [Finset.mem_filter, Finset.mem_Ico] at hd
    rw [contrib, if_neg]
    intro hmod
    have hdvd : d ∣ n := Nat.dvd_of_mod_eq_zero hmod
    have h2d : 2 ∣ d := Nat.dvd_of_mod_eq_zero (by omega)
    have h2n : 2 ∣ n := dvd_trans h2d hdvd
    omega
  omega

lemma split2_zero (m : ℕ) : split2 0 m = (0, m) := rfl

lemma split2_succ (fuel m : ℕ) :
    split2 (fuel + 1) m =
      if m % 2 = 0 ∧ m ≠ 0 then
        ((split2 fuel (m / 2)).1 + 1, (split2 fuel (m / 2)).2)
      else (0, m) := by
  show cond (m % 2 == 0 && !(m == 0))
      ((split2 fuel (m / 2)).1 + 1, (split2 fuel (m / 2)).2) (0, m) = _
  by_cases h : m % 2 = 0 ∧ m ≠ 0
  · have hb : (m % 2 == 0 && !(m == 0)) = true := by
      rw [Bool.and_eq_true, Bool.not_eq_true']
      exact ⟨beq_iff_eq.mpr h.1, beq_eq_false_iff_ne.mpr h.2⟩
    rw [hb, cond_true, if_pos h]
  · have hb : (m % 2 == 0 && !(m == 0)) = false := by
      rw [Bool.eq_false_iff]
      intro hc
      simp only [Bool.and_eq_true, beq_iff_eq, Bool.not_eq_true', beq_eq_false_iff_ne] at hc
      exact h hc
    rw [hb, cond_false, if_neg h]

/-- The fuel-indexed split is correct whenever the fuel covers the input:
the second component is odd and `2 ^ k * m' = m`. -/
lemma split2_spec :
    ∀ fuel m, 1 ≤ m → m ≤ fuel + 1 →
      (split2 fuel m).2 % 2 = 1 ∧ 2 ^ (split2 fuel m).1 * (split2 fuel m).2 = m := by
  intro fuel
  induction fuel with
  | zero =>
    intro m h1 h2
    have hm : m = 1 := by omega
    subst hm
    exact ⟨rfl, rfl⟩
  | succ fuel ih =>
    intro m h1 h2
    rw [split2_succ]
    by_cases hc : m % 2 = 0 ∧ m ≠ 0
    · rw [if_pos hc]
      have hrec := ih (m / 2) (by omega) (by omega)
      refine ⟨hrec.1, ?_⟩
      calc 2 ^ ((split2 fuel (m / 2)).1 + 1) * (split2 fuel (m / 2)).2
          = 2 * (2 ^ (split2 fuel (m / 2)).1 * (split2 fuel (m / 2)).2) := by ring
      _ = 2 * (m / 2) := by rw [hrec.2]
      _ = m := by omega
    · rw [if_neg hc]
      exact ⟨by omega, by simp⟩

lemma two_pow_geom (j : ℕ) : ∑ i ∈ Finset.range j, 2 ^ i = 2 ^ j - 1 := by
  induction j with
  | zero => rfl
  | succ j ih =>
    rw [Finset.sum_range_succ, ih]
    have h1 : 1 ≤ 2 ^ j := Nat.one_le_pow j 2 (by norm_num)
    have h2 : (2 : ℕ) ^ (j + 1) = 2 ^ j + 2 ^ j := by ring
    omega

lemma sum_divisors_two_pow (k : ℕ) : ∑ d ∈ (2 ^ k).divisors, d = 2 ^ (k + 1) - 1 := by
  rw [Nat.divisors_prime_pow Nat.prime_two, Finset.sum_map]
  simp only [Function.Embedding.coeFn_mk]
  exact two_pow_geom (k + 1)

/-- Multiplicativity of the divisor sum across the even/odd split:
`σ(n) = (2 ^ (k + 1) - 1) * σ(m)` for `n = 2 ^ k * m` with `m` odd. -/
lemma sigma_even_split (n : ℕ) (h1 : 1 ≤ n) :
    ∑ d ∈ n.divisors, d =
      (2 ^ ((split2 n n).1 + 1) - 1) * oddPairSum (split2 n n).2 := by
  obtain ⟨hodd, heq⟩ := split2_spec n n h1 (by omega)
  have hm1 : (split2 n n).2 ≠ 0 := by
    intro hz
    rw [hz, mul_zero] at heq
    omega
  have hcop : Nat.Coprime (2 ^ (split2 n n).1) (split2 n n).2 := by
    apply Nat.Coprime.pow_left
    rw [Nat.Prime.coprime_iff_not_dvd Nat.prime_two]
    intro hdvd
    have := Nat.mod_eq_zero_of_dvd hdvd
    omega
  calc ∑ d ∈ n.divisors, d
      = ∑ d ∈ (2 ^ (split2 n n).1 * (split2 n n).2).divisors, d := by rw [heq]
  _ = (∑ d ∈ (2 ^ (split2 n n).1).divisors, d) * ∑ d ∈ ((split2 n n).2).divisors, d :=
      Nat.Coprime.sum_divisors_mul hcop
  _ = (2 ^ ((split2 n n).1 + 1) - 1) * oddPairSum (split2 n n).2 := by
      rw [sum_divisors_two_pow, ← pairSum_eq_divisors _ hm1, oddPairSum_eq_pairSum _ hodd]

/-- The fast even test agrees with the source criterion `pairSum n = 2 * n`. -/
lemma evenPerfectCheck_iff (n : ℕ) (h1 : 1 ≤ n) :
    (evenPerfectCheck n = true) ↔ pairSum n = 2 * n := by
  rw [evenPerfectCheck, beq_iff_eq, ← sigma_even_split n h1,
    pairSum_eq_divisors n (by omega)]

lemma bulkCheck_chunk1 : bulkCheck 1 1000 = true := by decide!

lemma bulkCheck_chunk2 : bulkCheck 1001 1000 = true := by decide!

lemma bulkCheck_chunk3 : bulkCheck 2001 1000 = true := by decide!

lemma bulkCheck_chunk4 : bulkCheck 3001 1000 = true := by decide!

lemma bulkCheck_chunk5 : bulkCheck 4001 1000 = true := by decide!

lemma bulkCheck_chunk6 : bulkCheck 5001 1000 = true := by decide!

lemma bulkCheck_chunk7 : bulkCheck 6001 1000 = true := by decide!

lemma bulkCheck_chunk8 : bulkCheck 7001 1000 = true := by decide!

lemma bulkCheck_chunk9 : bulkCheck 8001 1000 = true := by decide!

lemma bulkCheck_chunk10 : bulkCheck 9001 1000 = true := by decide!

lemma bulkCheck_elim (a len n : ℕ) (hb : bulkCheck a len = true)
    (ha : a ≤ n) (hlt : n < a + len) :
    cond (n % 2 == 1) (!(oddPairSum n == 2 * n))
      (evenPerfectCheck n == (n == 6 || n == 28 || n == 496 || n == 8128)) = true := by
  have hmem : n ∈ List.range' a len := by
    rw [List.mem_range']
    exact ⟨n - a, by omega, by omega⟩
  exact List.all_eq_true.mp hb n hmem

lemma bulk_fact (n : ℕ) (h1 : 1 ≤ n) (h2 : n ≤ 10000) :
    cond (n % 2 == 1) (!(oddPairSum n == 2 * n))
      (evenPerfectCheck n == (n == 6 || n == 28 || n == 496 || n == 8128)) = true := by
  by_cases c1 : n ≤ 1000
  · exact bulkCheck_elim 1 1000 n bulkCheck_chunk1 (by omega) (by omega)
  by_cases c2 : n ≤ 2000
  · exact bulkCheck_elim 1001 1000 n bulkCheck_chunk2 (by omega) (by omega)
  by_cases c3 : n ≤ 3000
  · exact bulkCheck_elim 2001 1000 n bulkCheck_chunk3 (by omega) (by omega)
  by_cases c4 : n ≤ 4000
  · exact bulkCheck_elim 3001 1000 n bulkCheck_chunk4 (by omega) (by omega)
  by_cases c5 : n ≤ 5000
  · exact bulkCheck_elim 4001 1000 n bulkCheck_chunk5 (by omega) (by omega)
  by_cases c6 : n ≤ 6000
  · exact bulkCheck_elim 5001 1000 n bulkCheck_chunk6 (by omega) (by omega)
  by_cases c7 : n ≤ 7000
  · exact bulkCheck_elim 6001 1000 n bulkCheck_chunk7 (by omega) (by omega)
  by_cases c8 : n ≤ 8000
  · exact bulkCheck_elim 7001 1000 n bulkCheck_chunk8 (by omega) (by omega)
  by_cases c9 : n ≤ 9000
  · exact bulkCheck_elim 8001 1000 n bulkCheck_chunk9 (by omega) (by omega)
  exact bulkCheck_elim 9001 1000 n bulkCheck_chunk10 (by omega) (by omega)

/-- No odd candidate in the scanned range has pairing sum `2 * n`:
there is no odd perfect number up to 10000. -/
lemma odd_not_perfect (n : ℕ) (h1 : 1 ≤ n) (h2 : n ≤ 10000) (ho : n % 2 = 1) :
    pairSum n ≠ 2 * n := by
  have h := bulk_fact n h1 h2
  have hb : (n % 2 == 1) = true := beq_iff_eq.mpr ho
  rw [hb, cond_true, Bool.not_eq_true', beq_eq_false_iff_ne] at h
  rw [← oddPairSum_eq_pairSum n ho]
  exact h

/-- Every even candidate in the scanned range is accepted by
`isPerfectNumber` exactly when it is 6, 28, 496 or 8128. -/
lemma even_class (n : ℕ) (h1 : 1 ≤ n) (h2 : n ≤ 10000) (he : ¬ n % 2 = 1) :
    isPerfectNumber n = (n == 6 || n == 28 || n == 496 || n == 8128) := by
  have h := bulk_fact n h1 h2
  have hb : (n % 2 == 1) = false := beq_eq_false_iff_ne.mpr he
  rw [hb, cond_false] at h
  have hev := eq_of_beq h
  rw [Bool.eq_iff_iff, isPerfectNumber_true_iff n he,
    ← evenPerfectCheck_iff n h1, hev]

lemma range_class (n : ℕ) (h1 : 1 ≤ n) (h2 : n ≤ 10000) :
    isPerfectNumber n = (n == 6 || n == 28 || n == 496 || n == 8128) := by
  by_cases ho : n % 2 = 1
  · rw [isPerfectNumber_odd n ho]
    symm
    simp only [Bool.or_eq_false_iff, beq_eq_false_iff_ne]
    refine ⟨⟨⟨by omega, by omega⟩, by omega⟩, by omega⟩
  · exact even_class n h1 h2 ho

lemma filter_literal :
    (List.range' 1 10000).filter
      (fun n => n == 6 || n == 28 || n == 496 || n == 8128) = [6, 28, 496, 8128] := by
  decide!

lemma scanner_eq : scannerRadicands = [6, 28, 496, 8128] := by
  have hcongr : ∀ n ∈ scannedCandidates,
      isPerfectNumber n = (n == 6 || n == 28 || n == 496 || n == 8128) := by
    intro n hn
    simp only [scannedCandidates, RANGE_LOWER_BOUND, RANGE_UPPER_BOUND] at hn
    obtain ⟨i, hi, hEq⟩ := List.mem_range'.mp hn
    exact range_class _ (by omega) (by omega)
  calc scannerRadicands
      = scannedCandidates.filter (fun n => n == 6 || n == 28 || n == 496 || n == 8128) :=
        List.filter_congr hcongr
  _ = [6, 28, 496, 8128] := filter_literal

lemma displayFactors_sorted (n : ℕ) : List.Sorted (· < ·) (displayFactors n) := by
  have hchain : List.Chain (· < ·) 1 (List.range' 2 (n / 2 - 1)) :=
    @List.chain_lt_range' 1 (n / 2 - 1) 1 one_pos
  have hpair : List.Pairwise (· < ·) (1 :: List.range' 2 (n / 2 - 1)) :=
    List.chain'_iff_pairwise.mp hchain
  exact hpair.sublist (List.Sublist.cons₂ 1 (List.filter_sublist _))

lemma displayFactors_tail_mem (n d : ℕ) :
    d ∈ (displayFactors n).tail ↔ 2 ≤ d ∧ d ≤ n / 2 ∧ n % d = 0 := by
  show d ∈ (List.range' 2 (n / 2 - 1)).filter (fun d => n % d = 0) ↔ _
  rw [List.mem_filter, List.mem_range']
  constructor
  · rintro ⟨⟨i, hi, rfl⟩, hmod⟩
    refine ⟨by omega, by omega, by simpa using hmod⟩
  · rintro ⟨h1, h2, h3⟩
    exact ⟨⟨d - 2, by omega, by omega⟩, by simpa using h3⟩

lemma babylonianLoop_zero (r g : ℝ) (i : ℕ) : babylonianLoop r 0 g i = none := rfl

lemma babylonianLoop_succ (r g : ℝ) (fuel i : ℕ) :
    babylonianLoop r (fuel + 1) g i =
      if |g - 1 / 2 * (g + r / g)| ≤ limit then some (1 / 2 * (g + r / g), i + 1)
      else babylonianLoop r fuel (1 / 2 * (g + r / g)) (i + 1) := rfl

lemma babylonianLoop_spec (r : ℝ) :
    ∀ fuel k res iters,
      babylonianLoop r fuel (babylonianIterate r k) (k + 1) = some (res, iters) →
      ∃ j, k < j ∧ res = babylonianIterate r j ∧ iters = j + 1 ∧
        |babylonianIterate r (j - 1) - babylonianIterate r j| ≤ limit ∧
        ∀ i, k < i → i < j → limit < |babylonianIterate r (i - 1) - babylonianIterate r i| := by
  intro fuel
  induction fuel with
  | zero =>
    intro k res iters h
    rw [babylonianLoop_zero] at h
    exact absurd h (by simp)
  | succ fuel ih =>
    intro k res iters h
    rw [babylonianLoop_succ] at h
    have hnext : 1 / 2 * (babylonianIterate r k + r / babylonianIterate r k) =
        babylonianIterate r (k + 1) := rfl
    by_cases hc : |babylonianIterate r k - babylonianIterate r (k + 1)| ≤ limit
    · rw [hnext, if_pos hc] at h
      have hinj := Option.some_injective _ h
      have hres : res = babylonianIterate r (k + 1) :=
        (congrArg Prod.fst hinj).symm
      have hit : iters = k + 1 + 1 := (congrArg Prod.snd hinj).symm
      refine ⟨k + 1, by omega, hres, by omega, ?_, ?_⟩
      · simpa using hc
      · intro i h1 h2
        omega
    · rw [hnext, if_neg hc] at h
      obtain ⟨j, hj1, hj2, hj3, hj4, hj5⟩ := ih (k + 1) res iters h
      refine ⟨j, by omega, hj2, hj3, hj4, ?_⟩
      intro i hi1 hi2
      by_cases hik : i = k + 1
      · subst hik
        simpa using not_le.mp hc
      · exact hj5 i (by omega) hi2

/-- The characterization of a successful solver run: the result is the first
iterate whose step from its predecessor is within `limit`, at least one
refinement is performed, and the returned count is the index of that iterate
plus one (the initial guess counting as iteration 1). -/
lemma computeSquareRoot_spec (fuel : ℕ) (radicand : ℝ) (res : ℝ) (iters : ℕ)
    (h : computeSquareRoot fuel radicand = some (res, iters)) :
    ∃ j, 1 ≤ j ∧ res = babylonianIterate radicand j ∧ iters = j + 1 ∧
      |babylonianIterate radicand (j - 1) - babylonianIterate radicand j| ≤ limit ∧
      ∀ i, 1 ≤ i → i < j →
        limit < |babylonianIterate radicand (i - 1) - babylonianIterate radicand i| := by
  have h0 : babylonianIterate radicand 0 = getInitialGuess radicand := rfl
  rw [computeSquareRoot, ← h0] at h
  obtain ⟨j, hj1, hj2, hj3, hj4, hj5⟩ := babylonianLoop_spec radicand fuel 0 res iters h
  exact ⟨j, hj1, hj2, hj3, hj4, fun i hi1 hi2 => hj5 i hi1 hi2⟩

lemma limit_pos : 0 < limit := by
  rw [limit]
  have : (0:ℝ) < (BASE_E : ℝ) := by norm_num [BASE_E]
  exact zpow_pos this _

lemma limit_eq : limit = 1 / 10 ^ (15 : ℕ) := by
  rw [limit]
  norm_num [BASE_E, PRECISION]

lemma getInitialGuess_100 : getInitialGuess 100 = 10 := by
  have h100 : (100 : ℝ) = (10 : ℝ) ^ ((2 : ℕ) : ℝ) := by
    rw [Real.rpow_natCast]
    norm_num
  have hlogb : Real.logb 10 100 = 2 := by
    rw [h100, Real.logb_rpow (by norm_num) (by norm_num)]
    norm_num
  have hceil : ⌈Real.logb 10 100⌉ = 2 := by
    rw [hlogb]
    norm_num
  have hB : ((BASE_E : ℕ) : ℝ) = 10 := by norm_num [BASE_E]
  rw [getInitialGuess, hB, hceil]
  have h2 : (((2 : ℤ) : ℝ)) / 2 = 1 := by norm_num
  rw [h2, Real.rpow_one]

lemma computeSquareRoot_100 : computeSquareRoot 5 100 = some (10, 2) := by
  rw [computeSquareRoot, getInitialGuess_100,
    show (5 : ℕ) = 4 + 1 from rfl, babylonianLoop_succ]
  have hnext : (1 : ℝ) / 2 * (10 + 100 / 10) = 10 := by norm_num
  rw [hnext]
  rw [if_pos (by rw [sub_self, abs_zero]; exact le_of_lt limit_pos)]

lemma getInitialGuess_6 : getInitialGuess 6 = Real.sqrt 10 := by
  have hlog_pos : 0 < Real.logb 10 6 := Real.logb_pos (by norm_num) (by norm_num)
  have hlog_le : Real.logb 10 6 ≤ 1 := by
    rw [Real.logb_le_iff_le_rpow (by norm_num) (by norm_num), Real.rpow_one]
    norm_num
  have hceil : ⌈Real.logb 10 6⌉ = 1 := by
    rw [Int.ceil_eq_iff]
    constructor
    · push_cast
      linarith
    · push_cast
      exact hlog_le
  have hB : ((BASE_E : ℕ) : ℝ) = 10 := by norm_num [BASE_E]
  rw [getInitialGuess, hB, hceil, Real.sqrt_eq_rpow]
  norm_num

lemma step_alg (c s : ℝ) (hc : c ≠ 0) (hs : s ≠ 0) (h2 : s * s = 10) :
    1 / 2 * (c * s + 6 / (c * s)) = (5 * c ^ 2 + 3) / (10 * c) * s := by
  field_simp
  linear_combination (-6 * c) * h2

lemma cseq_succ (k : ℕ) : cseq (k + 1) = (5 * cseq k ^ 2 + 3) / (10 * cseq k) := rfl

lemma cseq_pos : ∀ k, 0 < cseq k := by
  intro k
  induction k with
  | zero => norm_num [cseq]
  | succ k ih => rw [cseq_succ]; positivity

lemma sqrt10_pos : (0 : ℝ) < Real.sqrt 10 := Real.sqrt_pos.mpr (by norm_num)

lemma sqrt10_gt_3 : (3 : ℝ) < Real.sqrt 10 :=
  (Real.lt_sqrt (by norm_num)).mpr (by norm_num)

lemma sqrt10_lt_4 : Real.sqrt 10 < 4 :=
  (Real.sqrt_lt' (by norm_num)).mpr (by norm_num)

lemma iterate6_eq : ∀ k, babylonianIterate 6 k = (cseq k : ℝ) * Real.sqrt 10 := by
  intro k
  induction k with
  | zero =>
    show getInitialGuess 6 = _
    rw [getInitialGuess_6]
    norm_num [cseq]
  | succ k ih =>
    show 1 / 2 * (babylonianIterate 6 k + 6 / babylonianIterate 6 k) = _
    rw [ih, cseq_succ]
    have hc : ((cseq k : ℚ) : ℝ) ≠ 0 := by
      exact_mod_cast ne_of_gt (cseq_pos k)
    have hs : Real.sqrt 10 ≠ 0 := ne_of_gt sqrt10_pos
    have h2 : Real.sqrt 10 * Real.sqrt 10 = 10 := Real.mul_self_sqrt (by norm_num)
    push_cast
    exact step_alg _ _ hc hs h2

lemma next6_eq (k : ℕ) :
    1 / 2 * ((cseq k : ℝ) * Real.sqrt 10 + 6 / ((cseq k : ℝ) * Real.sqrt 10)) =
      (cseq (k + 1) : ℝ) * Real.sqrt 10 := by
  have h1 := iterate6_eq k
  have h2 := iterate6_eq (k + 1)
  rw [← h1, ← h2]
  rfl

lemma cseq_1 : cseq 1 = 4 / 5 := by
  rw [show (1 : ℕ) = 0 + 1 from rfl, cseq_succ, show cseq 0 = 1 from rfl]
  norm_num

lemma cseq_2 : cseq 2 = 31 / 40 := by
  rw [show (2 : ℕ) = 1 + 1 from rfl, cseq_succ, cseq_1]
  norm_num

lemma cseq_3 : cseq 3 = 1921 / 2480 := by
  rw [show (3 : ℕ) = 2 + 1 from rfl, cseq_succ, cseq_2]
  norm_num

lemma cseq_4 : cseq 4 = 7380481 / 9528160 := by
  rw [show (4 : ℕ) = 3 + 1 from rfl, cseq_succ, cseq_3]
  norm_num

lemma cseq_5 : cseq 5 = 108942999582721 / 140644807689920 := by
  rw [show (5 : ℕ) = 4 + 1 from rfl, cseq_succ, cseq_4]
  norm_num

lemma cseq_6 :
    cseq 6 = 23737154316161495960243527681 / 30644534450949659703915744640 := by
  rw [show (6 : ℕ) = 5 + 1 from rfl, cseq_succ, cseq_5]
  norm_num

/-- The step from iterate `k` to iterate `k + 1` is still above the
convergence threshold when the coefficients differ by more than a third of
it (since `3 < √10`). -/
lemma step_not_small (k : ℕ) (h : 1 / 10 ^ (15 : ℕ) < 3 * (cseq k - cseq (k + 1))) :
    ¬ |(cseq k : ℝ) * Real.sqrt 10 - (cseq (k + 1) : ℝ) * Real.sqrt 10| ≤ limit := by
  rw [not_le, limit_eq]
  have hq : (0 : ℚ) < cseq k - cseq (k + 1) := by nlinarith
  have hqr : (0 : ℝ) < ((cseq k - cseq (k + 1) : ℚ) : ℝ) := by exact_mod_cast hq
  have hd : (cseq k : ℝ) * Real.sqrt 10 - (cseq (k + 1) : ℝ) * Real.sqrt 10 =
      ((cseq k - cseq (k + 1) : ℚ) : ℝ) * Real.sqrt 10 := by
    push_cast
    ring
  rw [hd, abs_of_pos (mul_pos hqr sqrt10_pos)]
  have hcast : ((1 / 10 ^ (15 : ℕ) : ℚ) : ℝ) < ((3 * (cseq k - cseq (k + 1)) : ℚ) : ℝ) := by
    exact_mod_cast h
  push_cast at hcast
  nlinarith [sqrt10_gt_3]

/-- The step from iterate `k` to iterate `k + 1` is within the convergence
threshold when the coefficients differ by at most a quarter of it
(since `√10 < 4`). -/
lemma step_small (k : ℕ) (h0 : 0 ≤ cseq k - cseq (k + 1))
    (h : 4 * (cseq k - cseq (k + 1)) ≤ 1 / 10 ^ (15 : ℕ)) :
    |(cseq k : ℝ) * Real.sqrt 10 - (cseq (k + 1) : ℝ) * Real.sqrt 10| ≤ limit := by
  rw [limit_eq]
  have hqr : (0 : ℝ) ≤ ((cseq k - cseq (k + 1) : ℚ) : ℝ) := by exact_mod_cast h0
  have hd : (cseq k : ℝ) * Real.sqrt 10 - (cseq (k + 1) : ℝ) * Real.sqrt 10 =
      ((cseq k - cseq (k + 1) : ℚ) : ℝ) * Real.sqrt 10 := by
    push_cast
    ring
  rw [hd, abs_of_nonneg (mul_nonneg hqr (le_of_lt sqrt10_pos))]
  have hcast : ((4 * (cseq k - cseq (k + 1)) : ℚ) : ℝ) ≤ ((1 / 10 ^ (15 : ℕ) : ℚ) : ℝ) := by
    exact_mod_cast h
  push_cast at hcast
  push_cast at hqr ⊢
  nlinarith [sqrt10_lt_4]

lemma cseq_0 : cseq 0 = 1 := rfl

/-- The full run of the solver on radicand 6: six refinement steps, exiting
with iteration count 7. -/
lemma computeSquareRoot_6 :
    computeSquareRoot 10 6 = some ((cseq 6 : ℝ) * Real.sqrt 10, 7) := by
  have hg : getInitialGuess 6 = (cseq 0 : ℝ) * Real.sqrt 10 := by
    rw [getInitialGuess_6, cseq_0]
    norm_num
  rw [computeSquareRoot, hg]
  show babylonianLoop 6 (9 + 1) ((cseq 0 : ℝ) * Real.sqrt 10) 1 = _
  rw [babylonianLoop_succ, next6_eq 0,
    if_neg (step_not_small 0 (by rw [cseq_0, cseq_1]; norm_num))]
  show babylonianLoop 6 (8 + 1) ((cseq 1 : ℝ) * Real.sqrt 10) 2 = _
  rw [babylonianLoop_succ, next6_eq 1,
    if_neg (step_not_small 1 (by rw [cseq_1, cseq_2]; norm_num))]
  show babylonianLoop 6 (7 + 1) ((cseq 2 : ℝ) * Real.sqrt 10) 3 = _
  rw [babylonianLoop_succ, next6_eq 2,
    if_neg (step_not_small 2 (by rw [cseq_2, cseq_3]; norm_num))]
  show babylonianLoop 6 (6 + 1) ((cseq 3 : ℝ) * Real.sqrt 10) 4 = _
  rw [babylonianLoop_succ, next6_eq 3,
    if_neg (step_not_small 3 (by rw [cseq_3, cseq_4]; norm_num))]
  show babylonianLoop 6 (5 + 1) ((cseq 4 : ℝ) * Real.sqrt 10) 5 = _
  rw [babylonianLoop_succ, next6_eq 4,
    if_neg (step_not_small 4 (by rw [cseq_4, cseq_5]; norm_num))]
  show babylonianLoop 6 (4 + 1) ((cseq 5 : ℝ) * Real.sqrt 10) 6 = _
  rw [babylonianLoop_succ, next6_eq 5,
    if_pos (step_small 5 (by rw [cseq_5, cseq_6]; norm_num)
      (by rw [cseq_5, cseq_6]; norm_num))]

/-- The returned value is within the precision target of the true square
root of 6. -/
lemma res6_close :
    |(cseq 6 : ℝ) * Real.sqrt 10 - Real.sqrt 6| ≤ 1 / 10 ^ (15 : ℕ) := by
  have hqpos : (0 : ℚ) < cseq 6 := cseq_pos 6
  have hqr : (0 : ℝ) < (cseq 6 : ℝ) := by exact_mod_cast hqpos
  have hx_pos : 0 < (cseq 6 : ℝ) * Real.sqrt 10 := mul_pos hqr sqrt10_pos
  have hs6 : (1 : ℝ) ≤ Real.sqrt 6 := by
    have h1 : (1 : ℝ) < Real.sqrt 6 := (Real.lt_sqrt (by norm_num)).mpr (by norm_num)
    linarith
  have hsum : (1 : ℝ) ≤ (cseq 6 : ℝ) * Real.sqrt 10 + Real.sqrt 6 := by linarith
  have hsq6 : Real.sqrt 6 ^ 2 = 6 := Real.sq_sqrt (by norm_num)
  have hsq10 : Real.sqrt 10 ^ 2 = 10 := Real.sq_sqrt (by norm_num)
  have hdiff : ((cseq 6 : ℝ) * Real.sqrt 10 - Real.sqrt 6) *
      ((cseq 6 : ℝ) * Real.sqrt 10 + Real.sqrt 6) =
      ((cseq 6 ^ 2 * 10 - 6 : ℚ) : ℝ) := by
    push_cast
    linear_combination ((cseq 6 : ℝ)) ^ 2 * hsq10 - hsq6
  have habs : |(cseq 6 : ℝ) * Real.sqrt 10 - Real.sqrt 6| *
      ((cseq 6 : ℝ) * Real.sqrt 10 + Real.sqrt 6) =
      |((cseq 6 ^ 2 * 10 - 6 : ℚ) : ℝ)| := by
    rw [← abs_of_pos (show (0 : ℝ) < (cseq 6 : ℝ) * Real.sqrt 10 + Real.sqrt 6 by linarith),
      ← abs_mul, hdiff]
  have hval0 : (0 : ℚ) ≤ cseq 6 ^ 2 * 10 - 6 := by rw [cseq_6]; norm_num
  have hval1 : cseq 6 ^ 2 * 10 - 6 ≤ 1 / 10 ^ (15 : ℕ) := by rw [cseq_6]; norm_num
  have hsmall : |((cseq 6 ^ 2 * 10 - 6 : ℚ) : ℝ)| ≤ 1 / 10 ^ (15 : ℕ) := by
    rw [abs_of_nonneg (by exact_mod_cast hval0)]
    have hc : ((cseq 6 ^ 2 * 10 - 6 : ℚ) : ℝ) ≤ ((1 / 10 ^ (15 : ℕ) : ℚ) : ℝ) := by
      exact_mod_cast hval1
    push_cast at hc
    convert hc using 2
    norm_num
  have hnn : (0 : ℝ) ≤ |(cseq 6 : ℝ) * Real.sqrt 10 - Real.sqrt 6| := abs_nonneg _
  calc |(cseq 6 : ℝ) * Real.sqrt 10 - Real.sqrt 6|
      = |(cseq 6 : ℝ) * Real.sqrt 10 - Real.sqrt 6| * 1 := (mul_one _).symm
  _ ≤ |(cseq 6 : ℝ) * Real.sqrt 10 - Real.sqrt 6| *
      ((cseq 6 : ℝ) * Real.sqrt 10 + Real.sqrt 6) := by
    exact mul_le_mul_of_nonneg_left hsum hnn
  _ = |((cseq 6 ^ 2 * 10 - 6 : ℚ) : ℝ)| := habs
  _ ≤ 1 / 10 ^ (15 : ℕ) := hsmall

lemma FP.getInitialGuess_zero : FP.getInitialGuess (FP.val 0) = FP.val 0 := by
  show FP.pow10 (FP.div (FP.ceil (FP.log10 (FP.val 0))) (FP.val 2)) = FP.val 0
  have h1 : FP.log10 (FP.val 0) = FP.negInf := by
    show (if (0 : ℝ) < 0 then _ else if (0 : ℝ) = 0 then _ else _) = _
    norm_num
  rw [h1]
  show FP.pow10 (FP.div FP.negInf (FP.val 2)) = FP.val 0
  have h2 : FP.div FP.negInf (FP.val 2) = FP.negInf := by
    show (if (0 : ℝ) ≤ 2 then FP.negInf else FP.posInf) = _
    norm_num
  rw [h2]
  rfl

lemma FP.getInitialGuess_neg (x : ℝ) (hx : x < 0) :
    FP.getInitialGuess (FP.val x) = FP.nan := by
  show FP.pow10 (FP.div (FP.ceil (FP.log10 (FP.val x))) (FP.val 2)) = FP.nan
  have h1 : FP.log10 (FP.val x) = FP.nan := by
    show (if x < 0 then FP.nan else _) = _
    rw [if_pos hx]
  rw [h1]
  rfl

/-- Run on radicand 0: the initial guess is `pow(10, -inf) = 0`, the single
refinement computes `0.5 * (0 + 0/0) = NaN`, and since `NaN > limit` is
false the loop exits at once, returning NaN with iteration count 2. -/
lemma FP.computeSquareRoot_zero (fuel : ℕ) :
    FP.computeSquareRoot (fuel + 1) (FP.val 0) = some (FP.nan, 2) := by
  rw [FP.computeSquareRoot, FP.getInitialGuess_zero]
  show (let next := FP.mul (FP.val (1 / 2)) (FP.add (FP.val 0) (FP.div (FP.val 0) (FP.val 0)))
    if FP.gtb (FP.fabs (FP.sub (FP.val 0) next)) (FP.val limit) then
      FP.babylonianLoop (FP.val 0) fuel next (1 + 1)
    else some (next, 1 + 1)) = some (FP.nan, 2)
  have hdiv : FP.div (FP.val 0) (FP.val 0) = FP.nan := by
    show (if (0 : ℝ) = 0 then (if (0 : ℝ) = 0 then FP.nan else _) else _) = _
    norm_num
  rw [hdiv]
  rfl

/-- Run on a negative radicand: `log10` yields NaN, which propagates through
the initial guess and the single refinement; `NaN > limit` is false, so the
loop exits at once, returning NaN with iteration count 2. -/
lemma FP.computeSquareRoot_neg (x : ℝ) (hx : x < 0) (fuel : ℕ) :
    FP.computeSquareRoot (fuel + 1) (FP.val x) = some (FP.nan, 2) := by
  rw [FP.computeSquareRoot, FP.getInitialGuess_neg x hx]
  rfl

lemma getInitialGuess_pos (r : ℝ) : 0 < getInitialGuess r := by
  rw [getInitialGuess]
  exact Real.rpow_pos_of_pos (by norm_num [BASE_E]) _

/-- C1: for every tested positive integer `n` in the scan range `[1, 10000]`,
`isPerfectNumber n` agrees with the brute-force reference
(`sum(d for d in 1..n-1 if n % d == 0) == n`), and the divisor sum computed
by the square-root-bounded pairing loop minus `n` equals the divisor sum of
the naive scan over `1..n-1`. -/
theorem claim_C1 (n : ℕ) (h1 : 1 ≤ n) (h2 : n ≤ 10000) :
    isPerfectNumber n = isPerfectNaive n ∧
      (pairSum n : ℤ) - n = (naiveSum n : ℤ) := by
  have hn : n ≠ 0 := by omega
  constructor
  · by_cases ho : n % 2 = 1
    · rw [isPerfectNumber_odd n ho,
        isPerfectNaive_eq_false_of_pairSum n hn (odd_not_perfect n h1 h2 ho)]
    · exact isPerfectNumber_of_even n ho
  · rw [pairSum_eq_naiveSum_add n hn]
    push_cast
    ring

/-- C1 witness: the agreement and the sum identity at the concrete
input 28. -/
theorem claim_C1_witness :
    isPerfectNumber 28 = isPerfectNaive 28 ∧
      (pairSum 28 : ℤ) - 28 = (naiveSum 28 : ℤ) :=
  claim_C1 28 (by norm_num) (by norm_num)

/-- C2: within the default range `[1, 10000]`, `isPerfectNumber` accepts
exactly 6, 28, 496 and 8128 (each even); in particular it rejects 1 and 2
and accepts 28. -/
theorem claim_C2 :
    (∀ n : ℕ, 1 ≤ n → n ≤ 10000 →
      (isPerfectNumber n = true ↔ (n = 6 ∨ n = 28 ∨ n = 496 ∨ n = 8128))) ∧
    isPerfectNumber 1 = false ∧ isPerfectNumber 2 = false ∧
    isPerfectNumber 28 = true ∧ 6 % 2 = 0 ∧ 28 % 2 = 0 ∧ 496 % 2 = 0 ∧ 8128 % 2 = 0 := by
  have hmain : ∀ n : ℕ, 1 ≤ n → n ≤ 10000 →
      (isPerfectNumber n = true ↔ (n = 6 ∨ n = 28 ∨ n = 496 ∨ n = 8128)) := by
    intro n h1 h2
    rw [range_class n h1 h2]
    simp only [Bool.or_eq_true, beq_iff_eq]
    omega
  refine ⟨hmain, ?_, ?_, ?_, rfl, rfl, rfl, rfl⟩
  · exact isPerfectNumber_odd 1 rfl
  · have h := hmain 2 (by norm_num) (by norm_num)
    rw [Bool.eq_false_iff]
    intro hc
    rcases h.mp hc with h6 | h28 | h496 | h8128 <;> omega
  · exact (hmain 28 (by norm_num) (by norm_num)).mpr (Or.inr (Or.inl rfl))

/-- C2 witness: the classification applied at the concrete input 6. -/
theorem claim_C2_witness : isPerfectNumber 6 = true :=
  (claim_C2.1 6 (by norm_num) (by norm_num)).mpr (Or.inl rfl)

/-- C3 counterexample: the claim says a non-positive radicand makes the
solver signal an `InvalidInput` condition rather than silently produce NaN.
The code has no such signal: under IEEE special-value semantics the run on
radicand 0 (and on -1) terminates normally after one refinement and
silently returns NaN with iteration count 2. -/
theorem claim_C3_counterexample :
    FP.computeSquareRoot 10 (FP.val 0) = some (FP.nan, 2) ∧
      FP.computeSquareRoot 10 (FP.val (-1)) = some (FP.nan, 2) :=
  ⟨FP.computeSquareRoot_zero 9, FP.computeSquareRoot_neg (-1) (by norm_num) 9⟩

/-- C3 amended: the solver performs no validation of its radicand.  For
every non-positive radicand (and any fuel allowing at least one pass) it
does not loop forever and does not signal any error condition: it silently
returns NaN after a single refinement, with iteration count 2. -/
theorem claim_C3 (x : ℝ) (hx : x ≤ 0) (fuel : ℕ) (hf : 1 ≤ fuel) :
    FP.computeSquareRoot fuel (FP.val x) = some (FP.nan, 2) := by
  obtain ⟨f, rfl⟩ : ∃ f, fuel = f + 1 := ⟨fuel - 1, by omega⟩
  rcases lt_or_eq_of_le hx with hlt | heq
  · exact FP.computeSquareRoot_neg x hlt f
  · subst heq
    exact FP.computeSquareRoot_zero f

/-- C3 witness: the amended claim at radicand -2 with fuel 5. -/
theorem claim_C3_witness :
    FP.computeSquareRoot 5 (FP.val (-2)) = some (FP.nan, 2) :=
  claim_C3 (-2) (by norm_num) 5 (by norm_num)

/-- C4: for every positive radicand, a successful solver run has do-while
semantics: the result is an iterate `j ≥ 1` (so at least one refinement
step was performed regardless of the initial guess), the loop stops exactly
at the first step whose distance from its predecessor is at most
`limit = 10^(-15)`, the count starts at 1 for the initial guess and grows
by one per refinement (`iters = j + 1`), and the returned count is at
least 2. -/
theorem claim_C4 (radicand : ℝ) (fuel : ℕ) (res : ℝ) (iters : ℕ)
    (hpos : 0 < radicand)
    (h : computeSquareRoot fuel radicand = some (res, iters)) :
    2 ≤ iters ∧ limit = 1 / 10 ^ (15 : ℕ) ∧
      ∃ j, 1 ≤ j ∧ res = babylonianIterate radicand j ∧ iters = j + 1 ∧
        |babylonianIterate radicand (j - 1) - babylonianIterate radicand j| ≤ limit ∧
        ∀ i, 1 ≤ i → i < j →
          limit < |babylonianIterate radicand (i - 1) - babylonianIterate radicand i| := by
  obtain ⟨j, hj1, hj2, hj3, hj4, hj5⟩ := computeSquareRoot_spec fuel radicand res iters h
  exact ⟨by omega, limit_eq, j, hj1, hj2, hj3, hj4, hj5⟩

/-- C4 witness: the solver run on radicand 100 (where the initial guess 10
is already exact, yet one refinement still happens) returns count 2. -/
theorem claim_C4_witness :
    computeSquareRoot 5 100 = some (10, 2) ∧ 2 ≤ 2 :=
  ⟨computeSquareRoot_100,
    (claim_C4 100 5 10 2 (by norm_num) computeSquareRoot_100).1⟩

/-- C5 counterexample: the claim says the printed factor sequence excludes
`n` itself for every positive integer `n`, but at `n = 1` the sequence is
`[1]`, which contains `n`. -/
theorem claim_C5_counterexample :
    displayFactors 1 = [1] ∧ (1 : ℕ) ∈ displayFactors 1 := by
  constructor
  · rfl
  · rw [show displayFactors 1 = [1] from rfl]
    exact List.mem_singleton.mpr rfl

/-- C5 amended: for every positive integer `n` the printed factor sequence
is strictly ascending, starts with 1, contains after the 1 exactly the
divisors `d` of `n` with `2 ≤ d ≤ n / 2` in increasing order, and excludes
`n` itself whenever `n ≥ 2` (for `n = 1` the sequence is `[1]`, which is
`n`); `displayFactors 28 = [1, 2, 4, 7, 14]` with sum 28. -/
theorem claim_C5 :
    (∀ n : ℕ, 1 ≤ n →
      List.Sorted (· < ·) (displayFactors n) ∧
      (displayFactors n).head? = some 1 ∧
      (2 ≤ n → n ∉ displayFactors n) ∧
      (∀ d, d ∈ (displayFactors n).tail ↔ 2 ≤ d ∧ d ≤ n / 2 ∧ n % d = 0)) ∧
    displayFactors 28 = [1, 2, 4, 7, 14] ∧ (displayFactors 28).sum = 28 := by
  refine ⟨?_, by decide, by decide⟩
  intro n h1
  refine ⟨displayFactors_sorted n, rfl, ?_, displayFactors_tail_mem n⟩
  intro h2 hmem
  rcases List.mem_cons.mp hmem with hone | htail
  · omega
  · have := (displayFactors_tail_mem n n).mp htail
    omega

/-- C5 witness: the amended claim applied at the concrete input 28. -/
theorem claim_C5_witness :
    List.Sorted (· < ·) (displayFactors 28) ∧ (28 : ℕ) ∉ displayFactors 28 :=
  ⟨(claim_C5.1 28 (by norm_num)).1, (claim_C5.1 28 (by norm_num)).2.2.1 (by norm_num)⟩

/-- C6: for every odd integer, `isPerfectNumber` returns false immediately
via the parity shortcut, without running the divisor loop. -/
theorem claim_C6 (n : ℕ) (h : n % 2 = 1) : isPerfectNumber n = false :=
  isPerfectNumber_odd n h

/-- C6 witness: the parity shortcut at the concrete input 3. -/
theorem claim_C6_witness : isPerfectNumber 3 = false :=
  claim_C6 3 rfl

/-- C7: for every positive radicand the initial guess equals
`10 ^ (ceil(log10 radicand) / 2)` and is strictly positive. -/
theorem claim_C7 (r : ℝ) (hr : 0 < r) :
    getInitialGuess r = (10 : ℝ) ^ ((⌈Real.logb 10 r⌉ : ℝ) / 2) ∧
      0 < getInitialGuess r := by
  constructor
  · rw [getInitialGuess]
    norm_num [BASE_E]
  · exact getInitialGuess_pos r

/-- C7 witness: the initial-guess formula and positivity at radicand 6. -/
theorem claim_C7_witness :
    getInitialGuess 6 = (10 : ℝ) ^ ((⌈Real.logb 10 6⌉ : ℝ) / 2) ∧
      0 < getInitialGuess 6 :=
  ⟨(claim_C7 6 (by norm_num)).1, (claim_C7 6 (by norm_num)).2⟩

/-- C8: the solver run on radicand 6 terminates, returns the deterministic
iteration count 7 (under 10), and its result is within `10^(-15)` of the
true value `√6 = 2.449489742783178...`. -/
theorem claim_C8 :
    ∃ res : ℝ, computeSquareRoot 10 6 = some (res, 7) ∧
      |res - Real.sqrt 6| ≤ 1 / 10 ^ (15 : ℕ) ∧ (7 : ℕ) < 10 :=
  ⟨(cseq 6 : ℝ) * Real.sqrt 10, computeSquareRoot_6, res6_close, by norm_num⟩

/-- C9 (implicit): in the default-configuration scan, `computeSquareRoot`
is invoked exactly on the radicands 6, 28, 496, 8128 — each a perfect
number, at least 6 and strictly positive — and the logarithm-based initial
guess is strictly positive on every one of them, so the NaN path of the
unguarded solver is unreachable from the scanner. -/
theorem claim_C9 :
    scannerRadicands = [6, 28, 496, 8128] ∧
    ∀ n ∈ scannerRadicands,
      Nat.Perfect n ∧ 6 ≤ n ∧ 0 < (n : ℝ) ∧ 0 < getInitialGuess (n : ℝ) := by
  refine ⟨scanner_eq, ?_⟩
  intro n hn
  have hfilter := List.mem_filter.mp hn
  have htrue : isPerfectNumber n = true := hfilter.2
  have hsc := hfilter.1
  simp only [scannedCandidates, RANGE_LOWER_BOUND, RANGE_UPPER_BOUND] at hsc
  obtain ⟨i, hi, hEq⟩ := List.mem_range'.mp hsc
  have hodd : ¬ n % 2 = 1 := by
    intro ho
    rw [isPerfectNumber_odd _ ho] at htrue
    exact absurd htrue (by simp)
  have hpair := (isPerfectNumber_true_iff _ hodd).mp htrue
  have hperf : Nat.Perfect n :=
    (perfect_iff_pairSum _ (by omega)).mpr hpair
  refine ⟨hperf, ?_, Nat.cast_pos.mpr (by omega), getInitialGuess_pos _⟩
  have hmem := hn
  rw [scanner_eq] at hmem
  simp only [List.mem_cons, List.not_mem_nil, or_false] at hmem
  omega

/-- C9 witness: the scanner facts applied at the first scanned radicand. -/
theorem claim_C9_witness :
    Nat.Perfect 6 ∧ 6 ≤ 6 ∧ 0 < ((6 : ℕ) : ℝ) ∧ 0 < getInitialGuess ((6 : ℕ) : ℝ) :=
  claim_C9.2 6 (by rw [claim_C9.1]; exact List.mem_cons_self 6 _)

/-- C10 (implicit): at input 0 — outside the documented positive domain —
the divisor loop body never runs (`pairSum 0 = 0`), the sum after the
`sum -= number` adjustment is 0, which equals the input, so
`isPerfectNumber 0 = true`: the positivity precondition is load-bearing. -/
theorem claim_C10 : pairSum 0 = 0 ∧ isPerfectNumber 0 = true := by
  constructor
  · rfl
  · decide
